import Mathlib

/-!
Verification of the academic-author-disambiguation repository's
identity-resolution engine: a shallow embedding in Lean 4 of
`src/common/name_matching.py`, `src/openalex/query.py`,
`src/google_scholar/search.py` and `src/scopus/id_match.py`,
together with theorems settling the specified behaviour.

Strings are modelled as Lean `String`s / `List Char`; the Unicode
operations of the Python standard library (`str.lower`,
`unicodedata.normalize("NFKD", ...)`, `str.isalnum`, `unidecode`) are
modelled character-by-character on the ASCII and Latin-1 ranges, which
covers the Spanish/English name domain the program operates on.
-/

namespace AuthorDisambiguation

/-! ## Character-level primitives -/

/-- Whitespace as recognised by Python's `str.split()`, `str.strip()` and
the regex class `\s` (ASCII range: space, tab, LF, VT, FF, CR). -/
def pyIsSpace (c : Char) : Bool :=
  c.toNat = 0x20 || (0x09 ≤ c.toNat && c.toNat ≤ 0x0D)

/-- Python `str.lower`, modelled on ASCII and the Latin-1 letter block
(`À`–`Þ` lower to `à`–`þ` by adding 32, skipping `×`). -/
def pyLower (c : Char) : Char :=
  if 0x41 ≤ c.toNat ∧ c.toNat ≤ 0x5A then Char.ofNat (c.toNat + 32)
  else if (0xC0 ≤ c.toNat ∧ c.toNat ≤ 0xDE) ∧ c.toNat ≠ 0xD7 then Char.ofNat (c.toNat + 32)
  else c

/-- Python `str.isalnum`, modelled on ASCII digits/letters plus the
Latin-1 letter block (excluding `×` and `÷`). -/
def pyAlnum (c : Char) : Bool :=
  (0x30 ≤ c.toNat && c.toNat ≤ 0x39) ||
  (0x41 ≤ c.toNat && c.toNat ≤ 0x5A) ||
  (0x61 ≤ c.toNat && c.toNat ≤ 0x7A) ||
  (0xC0 ≤ c.toNat && c.toNat ≤ 0xFF && c.toNat ≠ 0xD7 && c.toNat ≠ 0xF7)

/-- Unicode combining marks (the Combining Diacritical Marks block),
as detected by `unicodedata.combining(ch) != 0` on NFKD output. -/
def isCombining (c : Char) : Bool :=
  0x300 ≤ c.toNat && c.toNat ≤ 0x36F

/-- NFKD decompositions of the precomposed Latin-1 lowercase letters
(the only precomposed characters reachable after `str.lower`):
base letter followed by a combining mark. -/
def nfkdTable : List (Char × List Char) :=
  [('à', ['a', '̀']), ('á', ['a', '́']), ('â', ['a', '̂']),
   ('ã', ['a', '̃']), ('ä', ['a', '̈']), ('å', ['a', '̊']),
   ('ç', ['c', '̧']), ('è', ['e', '̀']), ('é', ['e', '́']),
   ('ê', ['e', '̂']), ('ë', ['e', '̈']), ('ì', ['i', '̀']),
   ('í', ['i', '́']), ('î', ['i', '̂']), ('ï', ['i', '̈']),
   ('ñ', ['n', '̃']), ('ò', ['o', '̀']), ('ó', ['o', '́']),
   ('ô', ['o', '̂']), ('õ', ['o', '̃']), ('ö', ['o', '̈']),
   ('ù', ['u', '̀']), ('ú', ['u', '́']), ('û', ['u', '̂']),
   ('ü', ['u', '̈']), ('ý', ['y', '́']), ('ÿ', ['y', '̈'])]

/-- `unicodedata.normalize("NFKD", ·)` applied to a single character:
identity on ASCII, table decomposition on precomposed Latin-1 letters,
identity elsewhere. -/
def nfkdChar (c : Char) : List Char :=
  if c.toNat ≤ 0x7F then [c]
  else
    match nfkdTable.find? (fun p => p.1 = c) with
    | some p => p.2
    | none => [c]

/-- `unidecode` applied to a single character: identity on ASCII,
transliteration of Latin-1 letters to their ASCII base letters,
untranslatable characters map to the empty string. -/
def unidecodeChar (c : Char) : List Char :=
  if c.toNat ≤ 0x7F then [c]
  else if 0xE0 ≤ c.toNat ∧ c.toNat ≤ 0xE5 then ['a']
  else if c.toNat = 0xE6 then ['a', 'e']
  else if c.toNat = 0xE7 then ['c']
  else if 0xE8 ≤ c.toNat ∧ c.toNat ≤ 0xEB then ['e']
  else if 0xEC ≤ c.toNat ∧ c.toNat ≤ 0xEF then ['i']
  else if c.toNat = 0xF0 then ['d']
  else if c.toNat = 0xF1 then ['n']
  else if (0xF2 ≤ c.toNat ∧ c.toNat ≤ 0xF6) ∨ c.toNat = 0xF8 then ['o']
  else if 0xF9 ≤ c.toNat ∧ c.toNat ≤ 0xFC then ['u']
  else if c.toNat = 0xFD ∨ c.toNat = 0xFF then ['y']
  else if c.toNat = 0xFE then ['t', 'h']
  else if c.toNat = 0xDF then ['s', 's']
  else if 0xC0 ≤ c.toNat ∧ c.toNat ≤ 0xC5 then ['A']
  else if c.toNat = 0xC6 then ['A', 'E']
  else if c.toNat = 0xC7 then ['C']
  else if 0xC8 ≤ c.toNat ∧ c.toNat ≤ 0xCB then ['E']
  else if 0xCC ≤ c.toNat ∧ c.toNat ≤ 0xCF then ['I']
  else if c.toNat = 0xD1 then ['N']
  else if (0xD2 ≤ c.toNat ∧ c.toNat ≤ 0xD6) ∨ c.toNat = 0xD8 then ['O']
  else if 0xD9 ≤ c.toNat ∧ c.toNat ≤ 0xDC then ['U']
  else if c.toNat = 0xDD then ['Y']
  else []

/-- The hyphen characters matched by the regex `[-‐]` in
`normalize_name` (ASCII hyphen-minus and U+2010 HYPHEN). -/
def isHyphenLike (c : Char) : Bool :=
  c = '-' || c = '‐'

/-- Word characters for the regex class `\w` after transliteration to
ASCII: alphanumerics, underscore, and (for the pre-`unidecode` call in
`normalize_institution_name`, where `re` is Unicode-aware) the Latin-1
letters. -/
def isWordChar (c : Char) : Bool :=
  pyAlnum c || c = '_'

/-! ## List-of-characters utilities (split / strip / collapse) -/

/-- `str.strip()`: drop whitespace from both ends. -/
def pyStrip (l : List Char) : List Char :=
  ((l.dropWhile pyIsSpace).reverse.dropWhile pyIsSpace).reverse

/-- `re.sub(r"\s+", " ", ·)`: replace every maximal whitespace run by a
single space. -/
def collapseWS : List Char → List Char
  | [] => []
  | c :: rest =>
    let tail := collapseWS rest
    if pyIsSpace c then
      match tail with
      | d :: _ => if d = ' ' then tail else ' ' :: tail
      | [] => [' ']
    else c :: tail

/-- Helper for `splitWS`: accumulates the current word (reversed). -/
def splitWSAux : List Char → List Char → List (List Char)
  | [], acc => if acc.isEmpty then [] else [acc.reverse]
  | c :: rest, acc =>
    if pyIsSpace c then
      if acc.isEmpty then splitWSAux rest [] else acc.reverse :: splitWSAux rest []
    else splitWSAux rest (c :: acc)

/-- `str.split()`: split on whitespace runs, dropping empty words. -/
def splitWS (l : List Char) : List (List Char) :=
  splitWSAux l []

/-! ## `src/common/name_matching.py` -/

/-- Body of `normalize_name` on character lists: strip, lower, NFKD
decomposition, drop combining marks, hyphens to spaces, keep
alphanumerics and whitespace, collapse whitespace, strip. -/
def normalizeChars (l : List Char) : List Char :=
  let l1 := (pyStrip l).map pyLower
  let l2 := (l1.flatMap nfkdChar).filter (fun c => !isCombining c)
  let l3 := l2.map (fun c => if isHyphenLike c then ' ' else c)
  let l4 := l3.filter (fun c => pyAlnum c || pyIsSpace c)
  pyStrip (collapseWS l4)

/-- `normalize_name`: lowercase, strip accents, remove punctuation,
collapse whitespace (the empty string is returned for non-string input
in Python; Lean strings are always strings). -/
def normalize_name (s : String) : String :=
  String.mk (normalizeChars s.data)

/-- The tokens of `full_name.lower().split()` used by
`parse_spanish_name`. -/
def spanishNameTokens (full_name : String) : List String :=
  (splitWS (full_name.data.map pyLower)).map String.mk

/-- `parse_spanish_name`: split a lowercased full name into
(first names, paternal surname, maternal surname). -/
def parse_spanish_name (full_name : String) :
    List String × Option String × Option String :=
  let tokens := spanishNameTokens full_name
  if tokens.length < 2 then (tokens, none, none)
  else
    let first_names := [tokens.headD ""]
    if tokens.length = 2 then (first_names, some (tokens.getD 1 ""), none)
    else (first_names, some (tokens.getD (tokens.length - 2) ""),
          some (tokens.getD (tokens.length - 1) ""))

/-- `tokenize_name_fields`: join the fields with spaces, lowercase,
transliterate with `unidecode`, hyphens to spaces, drop characters that
are neither word characters nor whitespace, split on whitespace. -/
def tokenize_name_fields (fields : List String) : List String :=
  let combined := (String.intercalate " " fields).data.map pyLower
  let c2 := combined.flatMap unidecodeChar
  let c3 := c2.map (fun c => if c = '-' then ' ' else c)
  let c4 := c3.filter (fun c => isWordChar c || pyIsSpace c)
  (splitWS c4).map String.mk

/-- `COMMON_INSTITUTION_WORDS`: generic institutional terms filtered out
when comparing institution names. -/
def COMMON_INSTITUTION_WORDS : List String :=
  ["universidad", "university", "college", "institute", "instituto",
   "institut", "facultad", "escuela", "politecnica", "autonoma",
   "superior", "council"]

/-- `normalize_institution_name`: lowercase, hyphens to spaces, drop
non-word characters, transliterate, split, and remove the common
institution stop-words. -/
def normalize_institution_name (name : String) : List String :=
  let l1 := name.data.map pyLower
  let l2 := l1.map (fun c => if c = '-' then ' ' else c)
  let l3 := l2.filter (fun c => isWordChar c || pyIsSpace c)
  let l4 := l3.flatMap unidecodeChar
  let tokens := (splitWS l4).map String.mk
  tokens.filter (fun t => ¬ t ∈ COMMON_INSTITUTION_WORDS)

/-- `institution_match`: true when some meaningful token of
`institution` occurs among `affiliation`'s meaningful tokens; false
whenever `institution` has no meaningful tokens. -/
def institution_match (institution affiliation : String) : Bool :=
  let inst_tokens := normalize_institution_name institution
  let aff_tokens := normalize_institution_name affiliation
  if inst_tokens.isEmpty then false
  else inst_tokens.any (fun t => t ∈ aff_tokens)

/-! ## `src/openalex/query.py` -/

/-- One step of the scan for `re.sub(r"\s*(\(.*?\)|,.*|/.*|-.*)", "", ·)`:
find the first `)` with no newline before it (the non-greedy `\(.*?\)`,
where `.` excludes newlines); returns the remainder after the match. -/
def closeParen : List Char → Option (List Char)
  | [] => none
  | c :: rest =>
    if c = ')' then some rest
    else if c = '\n' then none
    else closeParen rest

/-- Try to match the pattern `\s*(\(.*?\)|,.*|/.*|-.*)` at the head of
the list; on success return the remainder after the matched span. -/
def matchCleanPat (l : List Char) : Option (List Char) :=
  match l.dropWhile pyIsSpace with
  | '(' :: rest => closeParen rest
  | ',' :: rest => some (rest.dropWhile (fun c => c ≠ '\n'))
  | '/' :: rest => some (rest.dropWhile (fun c => c ≠ '\n'))
  | '-' :: rest => some (rest.dropWhile (fun c => c ≠ '\n'))
  | _ => none

/-- Left-to-right scan of `re.sub` with the cleaning pattern: delete each
match, otherwise copy one character.  Every match consumes at least one
character, so fuel equal to the length suffices. -/
def cleanSubGo : Nat → List Char → List Char
  | 0, l => l
  | _ + 1, [] => []
  | fuel + 1, c :: rest =>
    match matchCleanPat (c :: rest) with
    | some rem => cleanSubGo fuel rem
    | none => c :: cleanSubGo fuel rest

/-- The institution-name cleaning in `resolve_institution_id`:
`re.sub(r"\s*(\(.*?\)|,.*|/.*|-.*)", "", ins_name).strip()`. -/
def cleanInsName (s : String) : String :=
  String.mk (pyStrip (cleanSubGo s.data.length s.data))

/-- Outcome of the one institution-search HTTP request
`GET /institutions?search=...` (status plus the ids of `results`). -/
structure InsNetResponse where
  ok : Bool
  results : List String
deriving DecidableEq

/-- The sentinel cached when a lookup found nothing. -/
def MANUAL_REQUIRED : String := "MANUAL_REQUIRED"

/-- `resolve_institution_id`: clean the name, consult the cache, and on
a miss perform one network request.  The cache is an association list;
the returned `Nat` counts network requests made by this call. -/
def resolve_institution_id (ins_name : String)
    (cache : List (String × String)) (net : InsNetResponse) :
    Option String × List (String × String) × Nat :=
  let ins_clean := cleanInsName ins_name
  match cache.lookup ins_clean with
  | some cached =>
    (if cached = MANUAL_REQUIRED then none else some cached, cache, 0)
  | none =>
    if !net.ok then
      (none, (ins_clean, MANUAL_REQUIRED) :: cache, 1)
    else
      match net.results with
      | [] => (none, (ins_clean, MANUAL_REQUIRED) :: cache, 1)
      | ins_id :: _ => (some ins_id, (ins_clean, ins_id) :: cache, 1)

/-- The per-position token check loop of `bag_of_words_reject`:
returns `true` (reject) at the first failing candidate token. -/
def bagLoop : Nat → List String → List String → Bool
  | _, [], _ => false
  | i, token :: rest, full_name_tokens =>
    if full_name_tokens.length ≤ i then true
    else if token.length < 2 then
      if token ≠ (full_name_tokens.getD i "").take 1 then true
      else bagLoop (i + 1) rest full_name_tokens
    else if token ∈ full_name_tokens then bagLoop (i + 1) rest full_name_tokens
    else true

/-- `bag_of_words_reject`: memoised rejection check — an id already in
the reject memo is rejected immediately; otherwise the positional token
checks run. -/
def bag_of_words_reject (candidate_tokens full_name_tokens : List String)
    (reject_dict : List String) (candidate_alex_id : String) : Bool :=
  if candidate_alex_id ∈ reject_dict then true
  else bagLoop 0 candidate_tokens full_name_tokens

/-- A candidate author record as read from the OpenAlex `authors`
response (the fields the matcher consumes; `topics` is projected to the
ordered list of topic field display names). -/
structure Candidate where
  id : String
  displayName : String
  displayNameAlternatives : List String
  orcid : String
  scopus : String
  worksCount : Nat
  citedByCount : Nat
  summaryStats : String
  topics : List String
  affiliationInstIds : List String
deriving DecidableEq

/-- The tuple appended to `candidate_dict[fs_id]` by
`gather_candidate_data` (positional fields of the Python tuple). -/
structure CandidateEntry where
  fsId : String
  name : String
  alternatives : List String
  field : String
  alexId : String
  orcid : String
  scopus : String
  worksCount : Nat
  citedByCount : Nat
  summaryStats : String
  relevance : Option Int
  topics : List String
deriving DecidableEq

/-- `gather_candidate_data`: build the stored tuple for a candidate and
append it to the person's accumulated list. -/
def gather_candidate_data (fs_id : String) (c : Candidate)
    (candidate_name : String) (alternatives : List String)
    (entries : List CandidateEntry) : List CandidateEntry :=
  entries ++ [{ fsId := fs_id
                name := candidate_name
                alternatives := alternatives
                field := c.topics.headD ""
                alexId := c.id
                orcid := c.orcid
                scopus := c.scopus
                worksCount := c.worksCount
                citedByCount := c.citedByCount
                summaryStats := c.summaryStats
                relevance := none
                topics := c.topics }]

/-- Per-person matcher state inside a run: the accumulated
`candidate_dict[fs_id]` list and the (run-global) `reject_dict` keys. -/
structure OAState where
  entries : List CandidateEntry
  rejected : List String
deriving DecidableEq

/-- Tier 1 (`# Case 1`): accept candidates whose normalized display name
or any normalized alternative equals the normalized full name, skipping
ids already accepted. -/
def tier1Step (fs_id full_name_norm : String) (st : OAState)
    (c : Candidate) : OAState :=
  let candidate_name_norm := normalize_name c.displayName
  let alternatives_norm := c.displayNameAlternatives.map normalize_name
  if candidate_name_norm = full_name_norm ∨ full_name_norm ∈ alternatives_norm then
    if ¬ st.entries.any (fun ct => c.id = ct.alexId) then
      { st with entries := gather_candidate_data fs_id c c.displayName
                  c.displayNameAlternatives st.entries }
    else st
  else st

/-- Tier 2 (`# Case 2`): bag-of-words gate then institution-id match. -/
def tier2Step (fs_id full_name : String) (ins_id : Option String)
    (st : OAState) (c : Candidate) : OAState :=
  let full_name_tokens := (splitWS (normalize_name full_name).data).map String.mk
  let candidate_tokens := (splitWS (normalize_name c.displayName).data).map String.mk
  if st.entries.any (fun ct => c.id = ct.alexId) then st
  else if bag_of_words_reject candidate_tokens full_name_tokens st.rejected c.id then
    { st with rejected := st.rejected ++ [c.id] }
  else
    let candidate_institutions := c.affiliationInstIds.filter (fun i => i ≠ "")
    match ins_id with
    | some i =>
      if i ≠ "" ∧ i ∈ candidate_institutions then
        { st with entries := gather_candidate_data fs_id c c.displayName
                    c.displayNameAlternatives st.entries }
      else st
    | none => st

/-- Tier 3 (`# Case 3`): bag-of-words gate on alphabetically sorted
tokens, then topic-field overlap (top 2 each side) with the
best-relevance already-accepted candidate. -/
def tier3Step (fs_id full_name : String) (st : OAState)
    (c : Candidate) : OAState :=
  let full_name_tokens :=
    (((splitWS (normalize_name full_name).data).map String.mk).mergeSort (· ≤ ·))
  let candidate_tokens :=
    (((splitWS (normalize_name c.displayName).data).map String.mk).mergeSort (· ≤ ·))
  if st.entries.any (fun ct => c.id = ct.alexId) then st
  else if bag_of_words_reject candidate_tokens full_name_tokens st.rejected c.id then
    { st with rejected := st.rejected ++ [c.id] }
  else
    let best_existing := st.entries.foldl
      (fun best e =>
        match best with
        | none => some e
        | some b =>
          if (b.relevance.getD 0) < (e.relevance.getD 0) then some e else some b)
      none
    match best_existing with
    | none => st
    | some best =>
      if (best.topics.take 2).any (fun t => (c.topics.take 2).any (fun t2 => t = t2)) then
        { st with entries := gather_candidate_data fs_id c c.displayName
                    c.displayNameAlternatives st.entries }
      else st

/-- `search_openalex` after the author-search response: the three tier
loops in order over the result list. -/
def search_openalex (fs_id full_name : String) (ins_id : Option String)
    (results : List Candidate) (st : OAState) : OAState :=
  let full_name_norm := normalize_name full_name
  let st1 := results.foldl (tier1Step fs_id full_name_norm) st
  let st2 := results.foldl (tier2Step fs_id full_name ins_id) st1
  results.foldl (tier3Step fs_id full_name) st2

/-! ## `src/google_scholar/search.py` -/

/-- One author entry of a CrossRef work item. -/
structure WorkAuthor where
  given : String
  family : String
  affiliationNames : List String
deriving DecidableEq

/-- A CrossRef work item (the fields the scorer consumes).  A missing
or empty `DOI` is modelled by the empty string (both are falsy in the
Python code). -/
structure WorkItem where
  author : List WorkAuthor
  publisher : String
  createdDateParts : List (List Int)
  doi : String
deriving DecidableEq

/-- `check_affiliation_or_publisher`: any author affiliation, or the
publisher, matches the institution name. -/
def check_affiliation_or_publisher (item : WorkItem)
    (institution_name : String) : Bool :=
  item.author.any (fun au =>
    au.affiliationNames.any (fun aff => institution_match institution_name aff)) ||
  institution_match institution_name item.publisher

/-- `get_created_year`: first entry of the first `date-parts` list. -/
def get_created_year (item : WorkItem) : Option Int :=
  match item.createdDateParts with
  | (y :: _) :: _ => some y
  | _ => none

/-- `check_created_year_in_range`: publication year within
`scholarship_year ± delta`. -/
def check_created_year_in_range (item : WorkItem)
    (scholarship_year : Int) (delta : Int := 5) : Bool :=
  match get_created_year item with
  | none => false
  | some year => scholarship_year - delta ≤ year && year ≤ scholarship_year + delta

/-- Set-subset on token lists (Python `set.issubset`). -/
def tokenSubset (a b : List String) : Bool :=
  a.all (fun t => t ∈ b)

/-- Set-equality on token lists (Python `set` equality). -/
def tokenSetEq (a b : List String) : Bool :=
  tokenSubset a b && tokenSubset b a

/-- `compute_similarity_score`: `-999` without a perfect name match
(some single author's given+family token set containing all query
tokens), otherwise `1` plus the affiliation/publisher and year
bonuses. -/
def compute_similarity_score (item : WorkItem) (full_name : String)
    (institution_name : String) (scholarship_year : Int) : Int :=
  let query_tokens := tokenize_name_fields [full_name]
  let perfect_match := item.author.any (fun au =>
    tokenSubset query_tokens (tokenize_name_fields [au.given, au.family]))
  if !perfect_match then -999
  else
    (1 : Int) + (if check_affiliation_or_publisher item institution_name then 1 else 0)
      + (if check_created_year_in_range item scholarship_year then 1 else 0)

/-- Stable descending insertion by score: the element is placed before
the first element whose score is `≤` its own (Python `list.sort` with
`key=score, reverse=True` is a stable sort). -/
def insertDesc (p : Int × WorkItem) : List (Int × WorkItem) → List (Int × WorkItem)
  | [] => [p]
  | q :: rest => if q.1 ≤ p.1 then p :: q :: rest else q :: insertDesc p rest

/-- Stable descending sort by score. -/
def sortDesc (l : List (Int × WorkItem)) : List (Int × WorkItem) :=
  l.foldr insertDesc []

/-- Does some single author of the item have a token set exactly equal
to the query token set (the exact-match fallback test)? -/
def hasExactAuthor (item : WorkItem) (full_name : String) : Bool :=
  item.author.any (fun au =>
    tokenSetEq (tokenize_name_fields [au.given, au.family])
      (tokenize_name_fields [full_name]))

/-- DOI prefixing used in the returned record. -/
def mkDoiUrl (doi : String) : String := "https://doi.org/" ++ doi

/-- The selection logic of `search_doi` over an already-fetched result
list: score every item (keeping positive scores, in order), collect
exact-name-match items (in order), stable-sort the scored items by
descending score, return the best `≥ 2` if its DOI is truthy, else the
first exact match if its DOI is truthy, else `none`. -/
def search_doi (results : List WorkItem) (full_name : String)
    (institution_name : String) (scholarship_year : Int) :
    Option (String × Int) :=
  let scored_items := results.filterMap (fun item =>
    let sc := compute_similarity_score item full_name institution_name scholarship_year
    if 0 < sc then some (sc, item) else none)
  let exact_match_items := results.filter (fun item => hasExactAuthor item full_name)
  let best_scored := (sortDesc scored_items).filter (fun p => 2 ≤ p.1)
  match best_scored with
  | (best_score, best_item) :: _ =>
    if best_item.doi ≠ "" then some (mkDoiUrl best_item.doi, best_score)
    else
      match exact_match_items with
      | item :: _ => if item.doi ≠ "" then some (mkDoiUrl item.doi, 1) else none
      | [] => none
  | [] =>
    match exact_match_items with
    | item :: _ => if item.doi ≠ "" then some (mkDoiUrl item.doi, 1) else none
    | [] => none

/-- Maximum of the scores of a list of scored items. -/
def maxScore : List (Int × WorkItem) → Option Int
  | [] => none
  | p :: rest =>
    match maxScore rest with
    | none => some p.1
    | some m => some (max p.1 m)

/-- The first element of a scored list attaining the maximal score
(what the head of a stable descending sort is). -/
def firstMax (l : List (Int × WorkItem)) : Option (Int × WorkItem) :=
  match maxScore l with
  | none => none
  | some m => l.find? (fun x => x.1 = m)

/-- Modelled from the spec's selection-policy words, for comparison with
`search_doi`: among all documents with score ≥ 2 pick the maximum score
with ties broken by first-encountered order in the result set; if none
reach 2, the first document in original order with an exactly-equal
author token set, at fixed score 1; else no match. -/
def claimSelect (results : List WorkItem) (full_name : String)
    (institution_name : String) (scholarship_year : Int) :
    Option (String × Int) :=
  let score := fun item =>
    compute_similarity_score item full_name institution_name scholarship_year
  let eligible := results.filter (fun item => 2 ≤ score item)
  match maxScore (eligible.map (fun item => (score item, item))) with
  | some m =>
    (results.find? (fun item => score item = m)).map
      (fun item => (mkDoiUrl item.doi, m))
  | none =>
    (results.find? (fun item => hasExactAuthor item full_name)).map
      (fun item => (mkDoiUrl item.doi, 1))

/-! ## `src/scopus/id_match.py` -/

/-- One entry of the OpenAlex `authorships` list: the nested
`author.id` field, absent fields modelled as `none`. -/
structure Authorship where
  authorId : Option String
deriving DecidableEq

/-- `openalex_for_doi_by_index` after a successful work lookup: convert
the 1-based Scopus position to a 0-based index and read the positional
author's id when in bounds, else no author id. -/
def openalex_for_doi_by_index (work_id : Option String)
    (authorships : List Authorship) (seq : Int) :
    Option String × Option String :=
  let idx := seq - 1
  let author_id :=
    if 0 ≤ idx ∧ idx < authorships.length then
      (authorships.getD idx.toNat { authorId := none }).authorId
    else none
  (work_id, author_id)

/-- No two adjacent whitespace characters (the shape of
whitespace-collapsed strings, used to reason about idempotence). -/
def noTwoSpaces : List Char → Prop
  | c :: d :: rest =>
    ¬(pyIsSpace c = true ∧ pyIsSpace d = true) ∧ noTwoSpaces (d :: rest)
  | _ => True

/-! ## Theorems -/

/-- Claim C7: after a successful DOI lookup, the position-anchored
cross-linker returns the author at 0-based index `p - 1` whenever the
1-based position `p` satisfies `1 ≤ p ≤ n`, and a null author id (never
an error) when `p` is out of bounds (`p ≤ 0` or `p > n`). -/
theorem C7_position_anchored_crosslinker (work_id : Option String)
    (authorships : List Authorship) (p : Int) :
    (1 ≤ p → p ≤ (authorships.length : Int) →
      openalex_for_doi_by_index work_id authorships p
        = (work_id, (authorships.getD (p - 1).toNat { authorId := none }).authorId))
    ∧ ((p ≤ 0 ∨ (authorships.length : Int) < p) →
      openalex_for_doi_by_index work_id authorships p = (work_id, none)) := by
  constructor
  · intro h1 h2
    simp only [openalex_for_doi_by_index]
    split
    · rfl
    · exfalso; omega
  · intro h
    simp only [openalex_for_doi_by_index]
    split
    · exfalso; omega
    · rfl

/-- Claim C7 witness: a 3-author document at position 2 yields the
second author's identifier, and position 5 yields null. -/
theorem C7_position_anchored_crosslinker_witness :
    openalex_for_doi_by_index (some "W1")
        [{ authorId := some "A1" }, { authorId := some "A2" },
         { authorId := some "A3" }] 2
      = (some "W1", some "A2")
    ∧ openalex_for_doi_by_index (some "W1")
        [{ authorId := some "A1" }, { authorId := some "A2" },
         { authorId := some "A3" }] 5
      = (some "W1", none) := by
  constructor
  · rw [(C7_position_anchored_crosslinker (some "W1") _ 2).1 (by decide) (by decide)]
    decide
  · exact (C7_position_anchored_crosslinker (some "W1") _ 5).2 (by decide)

/-- Claim C2 counterexample: on the four-token name
"Juan Carlos Perez Lopez" the code keeps only the first token as the
first-names list, not all remaining leading tokens
(`["juan", "carlos"]`). -/
theorem C2_counterexample :
    (parse_spanish_name "Juan Carlos Perez Lopez").1 ≠ ["juan", "carlos"]
    ∧ parse_spanish_name "Juan Carlos Perez Lopez"
        = (["juan"], some "perez", some "lopez") := by decide

/-- Claim C2 (amended): for fewer than 2 tokens both surnames are null;
for exactly 2 tokens the result is (first token, second token, null);
for 3 or more tokens the paternal surname is the second-to-last token
and the maternal surname the last token, but the first-names list holds
only the first token (not all remaining leading tokens). -/
theorem C2_parse_hispanic_name (full_name : String) :
    ((spanishNameTokens full_name).length < 2 →
      parse_spanish_name full_name = (spanishNameTokens full_name, none, none))
    ∧ ((spanishNameTokens full_name).length = 2 →
      parse_spanish_name full_name
        = ([(spanishNameTokens full_name).headD ""],
           some ((spanishNameTokens full_name).getD 1 ""), none))
    ∧ (3 ≤ (spanishNameTokens full_name).length →
      parse_spanish_name full_name
        = ([(spanishNameTokens full_name).headD ""],
           some ((spanishNameTokens full_name).getD
             ((spanishNameTokens full_name).length - 2) ""),
           some ((spanishNameTokens full_name).getD
             ((spanishNameTokens full_name).length - 1) ""))) := by
  unfold parse_spanish_name
  refine ⟨fun h => ?_, fun h => ?_, fun h => ?_⟩
  · rw [if_pos h]
  · rw [if_neg (by omega), if_pos h]
  · rw [if_neg (by omega), if_neg (by omega)]

/-- Claim C2 witness: the two spec examples, via the amended theorem. -/
theorem C2_parse_hispanic_name_witness :
    parse_spanish_name "Juan Pérez López" = (["juan"], some "pérez", some "lópez")
    ∧ parse_spanish_name "Ana Ruiz" = (["ana"], some "ruiz", none) := by
  constructor
  · rw [(C2_parse_hispanic_name "Juan Pérez López").2.2 (by decide)]
    decide
  · rw [(C2_parse_hispanic_name "Ana Ruiz").2.1 (by decide)]
    decide

/-- Closed form of `compute_similarity_score` as a single conditional
on the perfect-name-match test. -/
theorem compute_score_eq (item : WorkItem)
    (full_name institution_name : String) (scholarship_year : Int) :
    compute_similarity_score item full_name institution_name scholarship_year
      = if item.author.any (fun au =>
            tokenSubset (tokenize_name_fields [full_name])
              (tokenize_name_fields [au.given, au.family])) then
          1 + (if check_affiliation_or_publisher item institution_name then 1 else 0)
            + (if check_created_year_in_range item scholarship_year then 1 else 0)
        else -999 := by
  unfold compute_similarity_score
  cases hp : item.author.any (fun au =>
      tokenSubset (tokenize_name_fields [full_name])
        (tokenize_name_fields [au.given, au.family])) <;> simp [hp]

/-- Claim C3: the composite score is `-999` exactly when no single
author's given+family token set contains the full target token set; on
a containing author it is `1` plus the affiliation/publisher bonus plus
the year bonus, hence always in `{-999, 1, 2, 3}`; a
superset-but-not-equal author with both secondary signals scores
exactly 3, and with neither signal exactly 1. -/
theorem C3_composite_scorer (item : WorkItem)
    (full_name institution_name : String) (scholarship_year : Int) :
    ((¬ ∃ au ∈ item.author,
        tokenSubset (tokenize_name_fields [full_name])
          (tokenize_name_fields [au.given, au.family]) = true) →
      compute_similarity_score item full_name institution_name scholarship_year = -999)
    ∧ ((∃ au ∈ item.author,
        tokenSubset (tokenize_name_fields [full_name])
          (tokenize_name_fields [au.given, au.family]) = true) →
      compute_similarity_score item full_name institution_name scholarship_year
        = 1 + (if check_affiliation_or_publisher item institution_name then 1 else 0)
          + (if check_created_year_in_range item scholarship_year then 1 else 0))
    ∧ (compute_similarity_score item full_name institution_name scholarship_year = -999
       ∨ compute_similarity_score item full_name institution_name scholarship_year = 1
       ∨ compute_similarity_score item full_name institution_name scholarship_year = 2
       ∨ compute_similarity_score item full_name institution_name scholarship_year = 3)
    ∧ ((∃ au ∈ item.author,
        tokenSubset (tokenize_name_fields [full_name])
          (tokenize_name_fields [au.given, au.family]) = true
        ∧ tokenSetEq (tokenize_name_fields [au.given, au.family])
            (tokenize_name_fields [full_name]) = false) →
      check_affiliation_or_publisher item institution_name = true →
      check_created_year_in_range item scholarship_year = true →
      compute_similarity_score item full_name institution_name scholarship_year = 3)
    ∧ ((∃ au ∈ item.author,
        tokenSubset (tokenize_name_fields [full_name])
          (tokenize_name_fields [au.given, au.family]) = true
        ∧ tokenSetEq (tokenize_name_fields [au.given, au.family])
            (tokenize_name_fields [full_name]) = false) →
      check_affiliation_or_publisher item institution_name = false →
      check_created_year_in_range item scholarship_year = false →
      compute_similarity_score item full_name institution_name scholarship_year = 1) := by
  have hneg : (¬ ∃ au ∈ item.author,
      tokenSubset (tokenize_name_fields [full_name])
        (tokenize_name_fields [au.given, au.family]) = true) →
      compute_similarity_score item full_name institution_name scholarship_year
        = -999 := by
    intro h
    have hb : item.author.any (fun au =>
        tokenSubset (tokenize_name_fields [full_name])
          (tokenize_name_fields [au.given, au.family])) = false := by
      rw [List.any_eq_false]
      intro au hau
      intro hc
      exact h ⟨au, hau, hc⟩
    rw [compute_score_eq, hb]
    simp
  have hpos : (∃ au ∈ item.author,
      tokenSubset (tokenize_name_fields [full_name])
        (tokenize_name_fields [au.given, au.family]) = true) →
      compute_similarity_score item full_name institution_name scholarship_year
        = 1 + (if check_affiliation_or_publisher item institution_name then 1 else 0)
          + (if check_created_year_in_range item scholarship_year then 1 else 0) := by
    intro h
    have hb : item.author.any (fun au =>
        tokenSubset (tokenize_name_fields [full_name])
          (tokenize_name_fields [au.given, au.family])) = true :=
      List.any_eq_true.mpr h
    rw [compute_score_eq, hb]
    simp
  refine ⟨hneg, hpos, ?_, ?_, ?_⟩
  · by_cases h : ∃ au ∈ item.author,
        tokenSubset (tokenize_name_fields [full_name])
          (tokenize_name_fields [au.given, au.family]) = true
    · rw [hpos h]
      split <;> split <;> omega
    · rw [hneg h]
      omega
  · intro h haff hyear
    obtain ⟨au, hau, hsub, _⟩ := h
    rw [hpos ⟨au, hau, hsub⟩, haff, hyear]
    simp
  · intro h haff hyear
    obtain ⟨au, hau, hsub, _⟩ := h
    rw [hpos ⟨au, hau, hsub⟩, haff, hyear]
    simp

/-- Claim C3 witness: a document whose only author token set is a
proper superset of the target's, with neither secondary signal, scores
exactly 1. -/
theorem C3_composite_scorer_witness :
    compute_similarity_score
      { author := [{ given := "Ana Maria", family := "Ruiz", affiliationNames := [] }],
        publisher := "", createdDateParts := [[1990]], doi := "" }
      "ana ruiz" "zzz" 2015 = 1 :=
  (C3_composite_scorer
    { author := [{ given := "Ana Maria", family := "Ruiz", affiliationNames := [] }],
      publisher := "", createdDateParts := [[1990]], doi := "" }
    "ana ruiz" "zzz" 2015).2.2.2.2 (by decide) (by decide) (by decide)

/-- Claim C10: when the person's institution name normalizes to an
empty meaningful-token list, `institution_match` is false against every
affiliation, so the affiliation/publisher check is false on every
document and the composite scorer can never grant the +1 affiliation
bonus. -/
theorem C10_empty_institution_tokens (institution : String)
    (h : normalize_institution_name institution = []) :
    (∀ affiliation, institution_match institution affiliation = false)
    ∧ (∀ item : WorkItem, check_affiliation_or_publisher item institution = false)
    ∧ (∀ (item : WorkItem) (full_name : String) (scholarship_year : Int),
        compute_similarity_score item full_name institution scholarship_year = -999
        ∨ compute_similarity_score item full_name institution scholarship_year
            = 1 + (if check_created_year_in_range item scholarship_year then 1 else 0)) := by
  have hmatch : ∀ affiliation, institution_match institution affiliation = false := by
    intro affiliation
    unfold institution_match
    rw [h]
    simp
  have hcheck : ∀ item : WorkItem,
      check_affiliation_or_publisher item institution = false := by
    intro item
    unfold check_affiliation_or_publisher
    simp [hmatch]
  refine ⟨hmatch, hcheck, fun item full_name scholarship_year => ?_⟩
  rw [compute_score_eq, hcheck item]
  split
  · right; simp
  · left; rfl

/-- Claim C10 witness: "University" is all stop-words, so the scorer's
affiliation bonus is never granted even for a matching affiliation. -/
theorem C10_empty_institution_tokens_witness :
    institution_match "University" "University of Michigan" = false :=
  (C10_empty_institution_tokens "University" (by decide)).1 "University of Michigan"

/-- The reject set of a tier-1 step is untouched. -/
theorem tier1Step_rejected (fs_id full_name_norm : String) (st : OAState)
    (c : Candidate) :
    (tier1Step fs_id full_name_norm st c).rejected = st.rejected := by
  simp only [tier1Step]
  split
  · split <;> rfl
  · rfl

/-- The reject set of a tier-2 step is the old one, possibly extended
by the candidate's id. -/
theorem tier2Step_rejected (fs_id full_name : String) (ins_id : Option String)
    (st : OAState) (c : Candidate) :
    (tier2Step fs_id full_name ins_id st c).rejected = st.rejected ∨
    (tier2Step fs_id full_name ins_id st c).rejected = st.rejected ++ [c.id] := by
  simp only [tier2Step]
  split
  · left; rfl
  split
  · right; rfl
  · split
    · split
      · left; rfl
      · left; rfl
    · left; rfl

/-- The reject set of a tier-3 step is the old one, possibly extended
by the candidate's id. -/
theorem tier3Step_rejected (fs_id full_name : String) (st : OAState)
    (c : Candidate) :
    (tier3Step fs_id full_name st c).rejected = st.rejected ∨
    (tier3Step fs_id full_name st c).rejected = st.rejected ++ [c.id] := by
  simp only [tier3Step]
  split
  · left; rfl
  split
  · right; rfl
  · split
    · left; rfl
    · split
      · left; rfl
      · left; rfl

/-- A left fold of steps each of which preserves reject-set membership
preserves reject-set membership. -/
theorem foldl_rejected_sub {f : OAState → Candidate → OAState}
    (hf : ∀ st c, ∀ x ∈ st.rejected, x ∈ (f st c).rejected) :
    ∀ (results : List Candidate) (st : OAState),
      ∀ x ∈ st.rejected, x ∈ (results.foldl f st).rejected := by
  intro results
  induction results with
  | nil => intro st x hx; exact hx
  | cons c rest ih => intro st x hx; exact ih (f st c) x (hf st c x hx)

/-- Claim C6: RejectionMemo is monotonic and source-scoped — the full
three-tier pass only ever grows the reject set, and the gate returns
`rejected` immediately for any id already in the memo, whatever the
token lists are. -/
theorem C6_rejection_memo_monotonic :
    (∀ (fs_id full_name : String) (ins_id : Option String)
        (results : List Candidate) (st : OAState),
      ∀ x ∈ st.rejected,
        x ∈ (search_openalex fs_id full_name ins_id results st).rejected)
    ∧ (∀ (candidate_tokens full_name_tokens reject_dict : List String)
        (candidate_alex_id : String),
      candidate_alex_id ∈ reject_dict →
        bag_of_words_reject candidate_tokens full_name_tokens reject_dict
          candidate_alex_id = true) := by
  constructor
  · intro fs_id full_name ins_id results st x hx
    unfold search_openalex
    apply foldl_rejected_sub (f := tier3Step fs_id full_name)
    · intro st' c y hy
      rcases tier3Step_rejected fs_id full_name st' c with h | h <;> rw [h]
      · exact hy
      · exact List.mem_append_left _ hy
    apply foldl_rejected_sub (f := tier2Step fs_id full_name ins_id)
    · intro st' c y hy
      rcases tier2Step_rejected fs_id full_name ins_id st' c with h | h <;> rw [h]
      · exact hy
      · exact List.mem_append_left _ hy
    apply foldl_rejected_sub (f := tier1Step fs_id (normalize_name full_name))
    · intro st' c y hy
      rw [tier1Step_rejected]
      exact hy
    exact hx
  · intro candidate_tokens full_name_tokens reject_dict candidate_alex_id hmem
    unfold bag_of_words_reject
    rw [if_pos hmem]

/-- Claim C6 witness: an id in the memo is rejected even when its
tokens would pass the positional checks, and the memo survives a full
pass. -/
theorem C6_rejection_memo_monotonic_witness :
    bag_of_words_reject ["juan"] ["juan"] ["A1"] "A1" = true
    ∧ "A1" ∈ (search_openalex "p" "Juan Garcia" none []
        { entries := [], rejected := ["A1"] }).rejected := by
  constructor
  · exact C6_rejection_memo_monotonic.2 ["juan"] ["juan"] ["A1"] "A1" (by decide)
  · exact C6_rejection_memo_monotonic.1 "p" "Juan Garcia" none []
      { entries := [], rejected := ["A1"] } "A1" (by decide)

/-- Accepted ids of a tier-1 step: ids are preserved, with the
candidate's id appended only when not already present. -/
theorem tier1Step_entries_nodup (fs_id full_name_norm : String)
    (st : OAState) (c : Candidate)
    (h : (st.entries.map CandidateEntry.alexId).Nodup) :
    ((tier1Step fs_id full_name_norm st c).entries.map CandidateEntry.alexId).Nodup := by
  simp only [tier1Step]
  split
  · split
    · rename_i hnot
      have hnotmem : c.id ∉ st.entries.map CandidateEntry.alexId := by
        simp only [List.any_eq_true, decide_eq_true_eq, not_exists, not_and] at hnot
        simp only [List.mem_map, not_exists, not_and]
        intro ct hct heq
        exact hnot ct hct heq.symm
      simp only [gather_candidate_data, List.map_append, List.map_cons, List.map_nil]
      simp [List.nodup_append, h, hnotmem]
    · exact h
  · exact h

/-- Accepted ids of a tier-2 step stay duplicate-free. -/
theorem tier2Step_entries_nodup (fs_id full_name : String)
    (ins_id : Option String) (st : OAState) (c : Candidate)
    (h : (st.entries.map CandidateEntry.alexId).Nodup) :
    ((tier2Step fs_id full_name ins_id st c).entries.map CandidateEntry.alexId).Nodup := by
  simp only [tier2Step]
  split
  · exact h
  rename_i hnot
  have hnotmem : c.id ∉ st.entries.map CandidateEntry.alexId := by
    simp only [List.any_eq_true, decide_eq_true_eq, not_exists, not_and] at hnot
    simp only [List.mem_map, not_exists, not_and]
    intro ct hct heq
    exact hnot ct hct heq.symm
  split
  · exact h
  · split
    · split
      · simp only [gather_candidate_data, List.map_append, List.map_cons, List.map_nil]
        simp [List.nodup_append, h, hnotmem]
      · exact h
    · exact h

/-- Accepted ids of a tier-3 step stay duplicate-free. -/
theorem tier3Step_entries_nodup (fs_id full_name : String)
    (st : OAState) (c : Candidate)
    (h : (st.entries.map CandidateEntry.alexId).Nodup) :
    ((tier3Step fs_id full_name st c).entries.map CandidateEntry.alexId).Nodup := by
  simp only [tier3Step]
  split
  · exact h
  rename_i hnot
  have hnotmem : c.id ∉ st.entries.map CandidateEntry.alexId := by
    simp only [List.any_eq_true, decide_eq_true_eq, not_exists, not_and] at hnot
    simp only [List.mem_map, not_exists, not_and]
    intro ct hct heq
    exact hnot ct hct heq.symm
  split
  · exact h
  · split
    · exact h
    · split
      · simp only [gather_candidate_data, List.map_append, List.map_cons, List.map_nil]
        simp [List.nodup_append, h, hnotmem]
      · exact h

/-- A left fold of steps each of which keeps accepted ids
duplicate-free keeps them duplicate-free. -/
theorem foldl_entries_nodup {f : OAState → Candidate → OAState}
    (hf : ∀ st c, (st.entries.map CandidateEntry.alexId).Nodup →
      ((f st c).entries.map CandidateEntry.alexId).Nodup) :
    ∀ (results : List Candidate) (st : OAState),
      (st.entries.map CandidateEntry.alexId).Nodup →
      ((results.foldl f st).entries.map CandidateEntry.alexId).Nodup := by
  intro results
  induction results with
  | nil => intro st h; exact h
  | cons c rest ih => intro st h; exact ih (f st c) (hf st c h)

/-- Claim C5: within a run, each sourceId occurs at most once in a
person's accumulated accepted-candidate list — the union of the three
tiers' acceptances (and earlier calls for the same person, represented
by the incoming state) never holds two entries with the same id. -/
theorem C5_source_id_unique (fs_id full_name : String)
    (ins_id : Option String) (results : List Candidate) (st : OAState)
    (h : (st.entries.map CandidateEntry.alexId).Nodup) :
    (((search_openalex fs_id full_name ins_id results st).entries.map
        CandidateEntry.alexId)).Nodup := by
  unfold search_openalex
  apply foldl_entries_nodup (fun st' c => tier3Step_entries_nodup fs_id full_name st' c)
  apply foldl_entries_nodup (fun st' c => tier2Step_entries_nodup fs_id full_name ins_id st' c)
  apply foldl_entries_nodup (fun st' c => tier1Step_entries_nodup fs_id (normalize_name full_name) st' c)
  exact h

/-- Claim C5 witness: a duplicate-profile result list (the same id
surfacing in several tiers) yields a duplicate-free accepted list. -/
theorem C5_source_id_unique_witness :
    (((search_openalex "p" "Juan Garcia" (some "I1")
        [{ id := "A1", displayName := "Juan Garcia", displayNameAlternatives := [],
           orcid := "", scopus := "", worksCount := 1, citedByCount := 1,
           summaryStats := "", topics := ["Economics"], affiliationInstIds := ["I1"] },
         { id := "A1", displayName := "Juan Garcia", displayNameAlternatives := [],
           orcid := "", scopus := "", worksCount := 1, citedByCount := 1,
           summaryStats := "", topics := ["Economics"], affiliationInstIds := ["I1"] }]
        { entries := [], rejected := [] }).entries.map
        CandidateEntry.alexId)).Nodup :=
  C5_source_id_unique "p" "Juan Garcia" (some "I1") _ _ (by decide)

/-- A cache hit on the cleaned key short-circuits the resolver: no
network request, null exactly on the sentinel. -/
theorem resolve_cached_eq (ins_name : String)
    (cache : List (String × String)) (net : InsNetResponse) (v : String)
    (h : cache.lookup (cleanInsName ins_name) = some v) :
    resolve_institution_id ins_name cache net
      = (if v = MANUAL_REQUIRED then none else some v, cache, 0) := by
  simp only [resolve_institution_id, h]

/-- After any resolver call, the cleaned key is present in the
returned cache. -/
theorem resolve_key_cached (ins_name : String)
    (cache : List (String × String)) (net : InsNetResponse) :
    ∃ v, ((resolve_institution_id ins_name cache net).2.1).lookup
      (cleanInsName ins_name) = some v := by
  rcases hl : cache.lookup (cleanInsName ins_name) with _ | v
  · simp only [resolve_institution_id, hl]
    split
    · exact ⟨MANUAL_REQUIRED, by simp [List.lookup]⟩
    · split
      · exact ⟨MANUAL_REQUIRED, by simp [List.lookup]⟩
      · rename_i r tail heq
        exact ⟨r, by simp [List.lookup]⟩
  · rw [resolve_cached_eq ins_name cache net v hl]
    exact ⟨v, hl⟩

/-- Claim C8: the cleaning step strips parenthetical qualifiers and
text after a comma, slash or dash and trims, so "MIT (Cambridge)" and
"MIT, Cambridge" share one cache key; a call whose cleaned key is
cached makes zero network requests, returns null exactly on the
sentinel and the cached id otherwise; and any second call for the same
institution makes zero network requests. -/
theorem C8_institution_resolver :
    cleanInsName "MIT (Cambridge)" = cleanInsName "MIT, Cambridge"
    ∧ (∀ (ins_name : String) (cache : List (String × String))
        (net : InsNetResponse) (v : String),
      cache.lookup (cleanInsName ins_name) = some v →
        resolve_institution_id ins_name cache net
          = (if v = MANUAL_REQUIRED then none else some v, cache, 0))
    ∧ (∀ (ins_name : String) (cache : List (String × String))
        (net net2 : InsNetResponse),
      (resolve_institution_id ins_name
        (resolve_institution_id ins_name cache net).2.1 net2).2.2 = 0) := by
  refine ⟨by decide, ?_, ?_⟩
  · intro ins_name cache net v h
    exact resolve_cached_eq ins_name cache net v h
  · intro ins_name cache net net2
    obtain ⟨v, hv⟩ := resolve_key_cached ins_name cache net
    rw [resolve_cached_eq ins_name _ net2 v hv]

/-- Claim C8 witness: with "MIT" cached as "I1", resolving
"MIT (Cambridge)" touches no network and returns the cached id. -/
theorem C8_institution_resolver_witness :
    resolve_institution_id "MIT (Cambridge)" [("MIT", "I1")]
        { ok := true, results := [] }
      = (some "I1", [("MIT", "I1")], 0) := by
  rw [C8_institution_resolver.2.1 "MIT (Cambridge)" [("MIT", "I1")]
    { ok := true, results := [] } "I1" (by decide)]
  decide

/-- The token-check loop of the bag-of-words gate returns `true`
exactly when some candidate token at (absolute) position `k + j` fails
its positional check. -/
theorem bagLoop_eq_true_iff (full : List String) :
    ∀ (cand : List String) (k : Nat),
      bagLoop k cand full = true ↔
        ∃ j, j < cand.length ∧
          (full.length ≤ k + j
           ∨ ((cand.getD j "").length < 2 ∧
              cand.getD j "" ≠ (full.getD (k + j) "").take 1)
           ∨ (2 ≤ (cand.getD j "").length ∧ ¬ cand.getD j "" ∈ full)) := by
  intro cand
  induction cand with
  | nil => intro k; simp [bagLoop]
  | cons t rest ih =>
    intro k
    rw [show bagLoop k (t :: rest) full
        = (if full.length ≤ k then true
           else if t.length < 2 then
             if t ≠ (full.getD k "").take 1 then true
             else bagLoop (k + 1) rest full
           else if t ∈ full then bagLoop (k + 1) rest full else true)
      from rfl]
    by_cases h1 : full.length ≤ k
    · rw [if_pos h1]
      simp only [true_iff]
      exact ⟨0, by simp, Or.inl (by simpa using h1)⟩
    · rw [if_neg h1]
      by_cases h2 : t.length < 2
      · rw [if_pos h2]
        by_cases h3 : t ≠ (full.getD k "").take 1
        · rw [if_pos h3]
          simp only [true_iff]
          refine ⟨0, by simp, Or.inr (Or.inl ?_)⟩
          simp only [List.getD_cons_zero, Nat.add_zero]
          exact ⟨h2, h3⟩
        · rw [if_neg h3]
          push_neg at h3
          rw [ih (k + 1)]
          constructor
          · rintro ⟨j, hj, hfail⟩
            refine ⟨j + 1, by simpa using Nat.succ_lt_succ hj, ?_⟩
            rw [List.getD_cons_succ]
            rw [show k + (j + 1) = k + 1 + j by omega]
            exact hfail
          · rintro ⟨j, hj, hfail⟩
            cases j with
            | zero =>
              exfalso
              simp only [List.getD_cons_zero, Nat.add_zero] at hfail
              rcases hfail with h | h | h
              · exact h1 h
              · exact h.2 h3
              · omega
            | succ j =>
              refine ⟨j, by simpa using Nat.lt_of_succ_lt_succ hj, ?_⟩
              rw [List.getD_cons_succ] at hfail
              rw [show k + (j + 1) = k + 1 + j by omega] at hfail
              exact hfail
      · rw [if_neg h2]
        by_cases h4 : t ∈ full
        · rw [if_pos h4]
          rw [ih (k + 1)]
          constructor
          · rintro ⟨j, hj, hfail⟩
            refine ⟨j + 1, by simpa using Nat.succ_lt_succ hj, ?_⟩
            rw [List.getD_cons_succ]
            rw [show k + (j + 1) = k + 1 + j by omega]
            exact hfail
          · rintro ⟨j, hj, hfail⟩
            cases j with
            | zero =>
              exfalso
              simp only [List.getD_cons_zero, Nat.add_zero] at hfail
              rcases hfail with h | h | h
              · exact h1 h
              · exact h2 h.1
              · exact h.2 h4
            | succ j =>
              refine ⟨j, by simpa using Nat.lt_of_succ_lt_succ hj, ?_⟩
              rw [List.getD_cons_succ] at hfail
              rw [show k + (j + 1) = k + 1 + j by omega] at hfail
              exact hfail
        · rw [if_neg h4]
          simp only [true_iff]
          refine ⟨0, by simp, Or.inr (Or.inr ?_)⟩
          simp only [List.getD_cons_zero]
          exact ⟨by omega, h4⟩

/-- Claim C1: with an empty rejection memo, the bag-of-words gate
rejects a candidate token list against a target token list exactly when
some candidate token at position `i` fails its check — the position is
past the end of the target, or an initial (length < 2) differing from
the first character of the target token at the same position, or a full
token (length ≥ 2) not occurring anywhere in the target list; the
spec's two examples pass and fail accordingly. -/
theorem C1_bag_of_words_gate (candidate_tokens full_name_tokens : List String)
    (h : ∀ t ∈ full_name_tokens, t ≠ "") :
    (bag_of_words_reject candidate_tokens full_name_tokens [] "id" = true ↔
      ∃ i, i < candidate_tokens.length ∧
        (full_name_tokens.length ≤ i
         ∨ ((candidate_tokens.getD i "").length < 2 ∧
            candidate_tokens.getD i ""
              ≠ (full_name_tokens.getD i "").take 1)
         ∨ (2 ≤ (candidate_tokens.getD i "").length ∧
            ¬ candidate_tokens.getD i "" ∈ full_name_tokens)))
    ∧ bag_of_words_reject ["j", "garcia"] ["juan", "garcia", "lopez"] [] "id" = false
    ∧ bag_of_words_reject ["juan", "garcia", "smith"] ["juan", "garcia", "lopez"] [] "id"
        = true := by
  refine ⟨?_, by decide, by decide⟩
  unfold bag_of_words_reject
  rw [if_neg (by simp)]
  simpa using bagLoop_eq_true_iff full_name_tokens candidate_tokens 0

/-- Claim C1 witness: the gate characterization at the spec's passing
example. -/
theorem C1_bag_of_words_gate_witness :
    ¬ ∃ i, i < (["j", "garcia"] : List String).length ∧
      ((["juan", "garcia", "lopez"] : List String).length ≤ i
       ∨ (((["j", "garcia"] : List String).getD i "").length < 2 ∧
          (["j", "garcia"] : List String).getD i ""
            ≠ ((["juan", "garcia", "lopez"] : List String).getD i "").take 1)
       ∨ (2 ≤ ((["j", "garcia"] : List String).getD i "").length ∧
          ¬ (["j", "garcia"] : List String).getD i ""
              ∈ (["juan", "garcia", "lopez"] : List String))) := by
  intro hex
  have hiff := (C1_bag_of_words_gate ["j", "garcia"] ["juan", "garcia", "lopez"]
    (by decide)).1
  have := hiff.mpr hex
  rw [(C1_bag_of_words_gate ["j", "garcia"] ["juan", "garcia", "lopez"]
    (by decide)).2.1] at this
  exact Bool.false_ne_true this

/-! ### Lemmas about the stable descending sort used by `search_doi` -/

/-- `maxScore` is `none` exactly on the empty list. -/
theorem maxScore_eq_none_iff (l : List (Int × WorkItem)) :
    maxScore l = none ↔ l = [] := by
  cases l with
  | nil => simp [maxScore]
  | cons p rest =>
    simp only [maxScore]
    rcases maxScore rest with _ | m <;> simp

/-- Every score in the list is bounded by `maxScore`. -/
theorem maxScore_le : ∀ (l : List (Int × WorkItem)) (m : Int),
    maxScore l = some m → ∀ x ∈ l, x.1 ≤ m := by
  intro l
  induction l with
  | nil => intro m _ x hx; simp at hx
  | cons p rest ih =>
    intro m h x hx
    simp only [maxScore] at h
    rcases hm : maxScore rest with _ | m' <;> rw [hm] at h <;>
      simp only [Option.some.injEq] at h <;> subst h
    · rcases List.mem_cons.mp hx with rfl | hx'
      · exact le_refl _
      · exfalso
        rw [maxScore_eq_none_iff] at hm
        subst hm
        simp at hx'
    · rcases List.mem_cons.mp hx with rfl | hx'
      · exact le_max_left _ _
      · exact le_trans (ih m' hm x hx') (le_max_right _ _)

/-- `maxScore` is attained by some element. -/
theorem maxScore_mem : ∀ (l : List (Int × WorkItem)) (m : Int),
    maxScore l = some m → ∃ x ∈ l, x.1 = m := by
  intro l
  induction l with
  | nil => intro m h; simp [maxScore] at h
  | cons p rest ih =>
    intro m h
    simp only [maxScore] at h
    rcases hm : maxScore rest with _ | m' <;> rw [hm] at h <;>
      simp only [Option.some.injEq] at h <;> subst h
    · exact ⟨p, List.mem_cons_self _ _, rfl⟩
    · rcases le_total p.1 m' with hle | hle
      · obtain ⟨x, hx, hx1⟩ := ih m' hm
        exact ⟨x, List.mem_cons_of_mem _ hx, by rw [hx1]; omega⟩
      · exact ⟨p, List.mem_cons_self _ _, by omega⟩

/-- Inserting preserves descending sortedness. -/
theorem insertDesc_sorted (p : Int × WorkItem) :
    ∀ l : List (Int × WorkItem),
      l.Chain' (fun x y => y.1 ≤ x.1) →
      (insertDesc p l).Chain' (fun x y => y.1 ≤ x.1) := by
  intro l
  induction l with
  | nil => intro _; simp [insertDesc]
  | cons q rest ih =>
    intro h
    unfold insertDesc
    by_cases hle : q.1 ≤ p.1
    · rw [if_pos hle]
      exact List.chain'_cons.mpr ⟨hle, h⟩
    · rw [if_neg hle]
      refine List.chain'_cons'.mpr ⟨?_, ih h.tail⟩
      intro b hb
      rcases rest with _ | ⟨r, rest'⟩
      · simp [insertDesc] at hb
        subst hb
        omega
      · have hqr : r.1 ≤ q.1 := (List.chain'_cons.mp h).1
        unfold insertDesc at hb
        split at hb <;>
          simp only [List.head?_cons, Option.mem_def, Option.some.injEq] at hb <;> subst hb
        · omega
        · exact hqr

/-- The stable sort is descending-sorted. -/
theorem sortDesc_sorted (l : List (Int × WorkItem)) :
    (sortDesc l).Chain' (fun x y => y.1 ≤ x.1) := by
  induction l with
  | nil => simp [sortDesc]
  | cons p rest ih => exact insertDesc_sorted p _ ih

/-- Insertion grows the length by one. -/
theorem insertDesc_length (p : Int × WorkItem) :
    ∀ l : List (Int × WorkItem), (insertDesc p l).length = l.length + 1 := by
  intro l
  induction l with
  | nil => rfl
  | cons q rest ih =>
    unfold insertDesc
    split
    · simp
    · simp [ih]

/-- Sorting preserves the length. -/
theorem sortDesc_length (l : List (Int × WorkItem)) :
    (sortDesc l).length = l.length := by
  induction l with
  | nil => rfl
  | cons p rest ih =>
    show (insertDesc p (sortDesc rest)).length = rest.length + 1
    rw [insertDesc_length, ih]

/-- The head of the stable descending sort is the first element of the
original list attaining the maximal score. -/
theorem sortDesc_head (l : List (Int × WorkItem)) :
    (sortDesc l).head? = firstMax l := by
  induction l with
  | nil => rfl
  | cons a l ih =>
    show (insertDesc a (sortDesc l)).head? = firstMax (a :: l)
    rcases hs : sortDesc l with _ | ⟨q, t⟩
    · have hl : l = [] := by
        have := sortDesc_length l
        rw [hs] at this
        exact List.length_eq_zero.mp this.symm
      subst hl
      simp only [insertDesc, List.head?_cons, firstMax, maxScore]
      rw [List.find?_cons_of_pos _ (by simp)]
    · rw [hs] at ih
      simp only [List.head?_cons] at ih
      rcases hm : maxScore l with _ | M
      · rw [maxScore_eq_none_iff] at hm
        subst hm
        simp [sortDesc] at hs
      · simp only [firstMax, hm] at ih
        have hfind : l.find? (fun x => decide (x.1 = M)) = some q := ih.symm
        have hqM : q.1 = M := by
          have := List.find?_some hfind
          simpa using this
        have hmax : maxScore (a :: l) = some (max a.1 M) := by
          simp [maxScore, hm]
        simp only [firstMax, hmax]
        unfold insertDesc
        by_cases hle : q.1 ≤ a.1
        · rw [if_pos hle]
          have hMa : max a.1 M = a.1 := by omega
          rw [hMa, List.find?_cons_of_pos _ (by simp)]
          simp
        · rw [if_neg hle]
          have hMa : max a.1 M = M := by omega
          rw [hMa, List.find?_cons_of_neg _ (by simp; omega)]
          simp only [List.head?_cons]
          exact ih

/-- In a descending-sorted list every later element is bounded by the
head. -/
theorem chain_desc_head_le :
    ∀ (t : List (Int × WorkItem)) (x : Int × WorkItem),
      (x :: t).Chain' (fun a b => b.1 ≤ a.1) → ∀ y ∈ t, y.1 ≤ x.1 := by
  intro t
  induction t with
  | nil => intro x _ y hy; simp at hy
  | cons r t' ih =>
    intro x h y hy
    have hrx : r.1 ≤ x.1 := (List.chain'_cons.mp h).1
    rcases List.mem_cons.mp hy with rfl | hy'
    · exact hrx
    · exact le_trans (ih r (List.chain'_cons.mp h).2 y hy') hrx

/-- On a descending-sorted list, filtering scores `≥ 2` keeps the head
exactly when the head qualifies, and is empty otherwise. -/
theorem filter_ge2_head (s : List (Int × WorkItem))
    (hs : s.Chain' (fun x y => y.1 ≤ x.1)) :
    (s.filter (fun p => 2 ≤ p.1)).head? =
      match s.head? with
      | some h0 => if 2 ≤ h0.1 then some h0 else none
      | none => none := by
  rcases s with _ | ⟨h0, t⟩
  · rfl
  · simp only [List.head?_cons]
    by_cases h2 : 2 ≤ h0.1
    · rw [if_pos h2, List.filter_cons_of_pos (by simpa using h2)]
      simp
    · rw [if_neg h2, List.filter_cons_of_neg (by simpa using h2)]
      have hnil : t.filter (fun p => 2 ≤ p.1) = [] := by
        rw [List.filter_eq_nil_iff]
        intro a ha
        have := chain_desc_head_le t h0 hs a ha
        simp only [decide_eq_true_eq]
        omega
      rw [hnil]
      rfl

/-- Membership in the positive-score `filterMap` of `search_doi`. -/
theorem mem_scored_iff (sc : WorkItem → Int) (results : List WorkItem)
    (x : Int × WorkItem) :
    x ∈ results.filterMap
        (fun item => if 0 < sc item then some (sc item, item) else none) ↔
      x.2 ∈ results ∧ 0 < sc x.2 ∧ x.1 = sc x.2 := by
  obtain ⟨x1, x2⟩ := x
  simp only [List.mem_filterMap]
  constructor
  · rintro ⟨it, hit, hf⟩
    split at hf
    · rename_i h0
      simp only [Option.some.injEq, Prod.mk.injEq] at hf
      obtain ⟨h1, h2⟩ := hf
      subst h2
      exact ⟨hit, h0, h1.symm⟩
    · cases hf
  · rintro ⟨h2, h0, h1⟩
    refine ⟨x2, h2, ?_⟩
    rw [if_pos h0, h1]

/-- `find?` for the maximal score commutes with the positive-score
`filterMap` provided the target score is positive. -/
theorem find?_scored (sc : WorkItem → Int) (M : Int) (hM : 0 < M) :
    ∀ results : List WorkItem,
      (results.filterMap
          (fun item => if 0 < sc item then some (sc item, item) else none)).find?
          (fun x => x.1 = M)
        = (results.find? (fun item => sc item = M)).map
            (fun item => (sc item, item)) := by
  intro results
  induction results with
  | nil => rfl
  | cons it rest ih =>
    by_cases h0 : 0 < sc it
    · simp only [List.filterMap_cons, if_pos h0]
      by_cases hMit : sc it = M
      · rw [List.find?_cons_of_pos _ (by simpa using hMit),
            List.find?_cons_of_pos _ (by simpa using hMit)]
        simp
      · rw [List.find?_cons_of_neg _ (by simpa using hMit),
            List.find?_cons_of_neg _ (by simpa using hMit)]
        exact ih
    · simp only [List.filterMap_cons, if_neg h0]
      have hMit : ¬ sc it = M := by omega
      rw [List.find?_cons_of_neg _ (by simpa using hMit)]
      exact ih

/-- The head of a filtered list is its first satisfying element. -/
theorem filter_head_eq_find {α : Type} (p : α → Bool) :
    ∀ l : List α, (l.filter p).head? = l.find? p := by
  intro l
  induction l with
  | nil => rfl
  | cons a t ih =>
    by_cases h : p a
    · rw [List.filter_cons_of_pos h, List.find?_cons_of_pos _ h]
      simp
    · rw [List.filter_cons_of_neg (by simpa using h),
          List.find?_cons_of_neg _ (by simpa using h)]
      exact ih

/-- `find?` succeeds when some member satisfies the predicate. -/
theorem find?_isSome_of_mem {α : Type} (p : α → Bool) :
    ∀ (l : List α) (a : α), a ∈ l → p a = true → ∃ b, l.find? p = some b := by
  intro l
  induction l with
  | nil => intro a ha; simp at ha
  | cons c t ih =>
    intro a ha hpa
    by_cases hc : p c
    · exact ⟨c, List.find?_cons_of_pos _ hc⟩
    · rcases List.mem_cons.mp ha with rfl | ha'
      · exact absurd hpa hc
      · obtain ⟨b, hb⟩ := ih a ha' hpa
        exact ⟨b, by rw [List.find?_cons_of_neg _ (by simpa using hc)]; exact hb⟩

/-- The head of `search_doi`'s filtered, sorted, positively scored list
equals the first result attaining the maximal `≥ 2` score. -/
theorem best_scored_head_eq (sc : WorkItem → Int) (results : List WorkItem) :
    ((sortDesc (results.filterMap
        (fun item => if 0 < sc item then some (sc item, item) else none))).filter
        (fun p => 2 ≤ p.1)).head?
      = match maxScore ((results.filter (fun it => 2 ≤ sc it)).map
          (fun it => (sc it, it))) with
        | some M =>
          (results.find? (fun it => sc it = M)).map (fun it => (sc it, it))
        | none => none := by
  rw [filter_ge2_head _ (sortDesc_sorted _), sortDesc_head]
  rcases hM : maxScore ((results.filter (fun it => 2 ≤ sc it)).map
      (fun it => (sc it, it))) with _ | M
  · rw [maxScore_eq_none_iff] at hM
    have hnone : ∀ it ∈ results, ¬ (2 ≤ sc it) := by
      intro it hit h2
      have hmem : (sc it, it)
          ∈ (results.filter (fun it => 2 ≤ sc it)).map (fun it => (sc it, it)) :=
        List.mem_map_of_mem _ (List.mem_filter.mpr ⟨hit, by simpa using h2⟩)
      rw [hM] at hmem
      simp at hmem
    rcases hf : firstMax (results.filterMap
        (fun item => if 0 < sc item then some (sc item, item) else none)) with _ | h0
    · simp only [hf]
    · simp only [hf]
      have hmem : h0 ∈ results.filterMap
          (fun item => if 0 < sc item then some (sc item, item) else none) := by
        simp only [firstMax] at hf
        rcases hms : maxScore (results.filterMap
            (fun item => if 0 < sc item then some (sc item, item) else none)) with _ | m
        · rw [hms] at hf
          cases hf
        · rw [hms] at hf
          exact List.mem_of_find?_eq_some hf
      obtain ⟨hres, _, heq⟩ := (mem_scored_iff sc results h0).mp hmem
      have hlt : ¬ 2 ≤ h0.1 := by
        have := hnone h0.2 hres
        omega
      rw [if_neg hlt]
  · -- some element of `results` reaches the maximal eligible score M
    obtain ⟨x, hxmem, hx1⟩ := maxScore_mem _ M hM
    obtain ⟨itM0, hitM0, hpair⟩ := List.mem_map.mp hxmem
    obtain ⟨hitM0res, hitM0sc⟩ := List.mem_filter.mp hitM0
    have hscM : sc itM0 = M := by
      rw [← hx1, ← hpair]
    have h2M : 2 ≤ M := by
      have := of_decide_eq_true hitM0sc
      omega
    -- the overall positive-score maximum coincides with M
    have hMS : maxScore (results.filterMap
        (fun item => if 0 < sc item then some (sc item, item) else none)) = some M := by
      have hin : (M, itM0) ∈ results.filterMap
          (fun item => if 0 < sc item then some (sc item, item) else none) :=
        (mem_scored_iff sc results (M, itM0)).mpr
          ⟨hitM0res, by show 0 < sc itM0; omega, by show M = sc itM0; omega⟩
      rcases hms : maxScore (results.filterMap
          (fun item => if 0 < sc item then some (sc item, item) else none)) with _ | m
      · rw [maxScore_eq_none_iff] at hms
        rw [hms] at hin
        simp at hin
      · have hMm : M ≤ m := by
          have := maxScore_le _ m hms (M, itM0) hin
          simpa using this
        have hmM : m ≤ M := by
          obtain ⟨y, hy, hy1⟩ := maxScore_mem _ m hms
          obtain ⟨hyres, hypos, hysc⟩ := (mem_scored_iff sc results y).mp hy
          have hyelig : y.2 ∈ results.filter (fun it => 2 ≤ sc it) :=
            List.mem_filter.mpr ⟨hyres, by simp; omega⟩
          have hypair : (sc y.2, y.2)
              ∈ (results.filter (fun it => 2 ≤ sc it)).map (fun it => (sc it, it)) :=
            List.mem_map_of_mem _ hyelig
          have := maxScore_le _ M hM (sc y.2, y.2) hypair
          simp at this
          omega
        rw [Int.le_antisymm hMm hmM]
    simp only [firstMax, hMS]
    rw [find?_scored sc M (by omega)]
    obtain ⟨itM, hfind⟩ := find?_isSome_of_mem (fun it => decide (sc it = M))
      results itM0 hitM0res (by simpa using hscM)
    rw [hfind]
    have hitMsc : sc itM = M := by
      have := List.find?_some hfind
      simpa using this
    show (match some (sc itM, itM) with
      | some h0 => if 2 ≤ h0.1 then some h0 else none
      | none => none) = some (sc itM, itM)
    rw [show (match some (sc itM, itM) with
        | some h0 => if 2 ≤ h0.1 then some h0 else none
        | none => none)
      = if 2 ≤ (sc itM, itM).1 then some (sc itM, itM) else none from rfl]
    rw [if_pos (by show (2 : Int) ≤ sc itM; omega)]

/-- Claim C4 counterexample: a result set whose only document scores
`≥ 2` but carries no DOI makes `search_doi` return `None`, although the
claim requires the DOI of the maximum-scoring document to be
returned. -/
theorem C4_counterexample :
    2 ≤ compute_similarity_score
        { author := [{ given := "Ana Maria", family := "Ruiz", affiliationNames := [] }],
          publisher := "", createdDateParts := [[2015]], doi := "" }
        "ana ruiz" "zzz" 2015
    ∧ search_doi
        [{ author := [{ given := "Ana Maria", family := "Ruiz", affiliationNames := [] }],
           publisher := "", createdDateParts := [[2015]], doi := "" }]
        "ana ruiz" "zzz" 2015 = none := by decide

/-- Claim C4 (amended): provided every document in the result set
carries a nonempty DOI, `search_doi` implements exactly the claimed
selection policy — the maximum score `≥ 2` with ties broken by
first-encountered order, else the first exact author token-set match at
fixed score 1, else a null result.  (Without the DOI proviso a selected
document with an empty DOI falls through, as the counterexample
shows.) -/
theorem C4_selection_policy (results : List WorkItem)
    (full_name institution_name : String) (scholarship_year : Int)
    (hdoi : ∀ item ∈ results, item.doi ≠ "") :
    search_doi results full_name institution_name scholarship_year
      = claimSelect results full_name institution_name scholarship_year := by
  have hkey := best_scored_head_eq
    (fun item => compute_similarity_score item full_name institution_name scholarship_year)
    results
  simp only [search_doi, claimSelect]
  rcases hM : maxScore ((results.filter (fun it =>
      2 ≤ compute_similarity_score it full_name institution_name scholarship_year)).map
      (fun it => (compute_similarity_score it full_name institution_name scholarship_year,
        it))) with _ | M
  · -- no document reaches score 2: both sides use the exact-match fallback
    simp only [hM] at hkey
    simp only [hM]
    have hbs : (sortDesc (results.filterMap (fun item =>
        if 0 < compute_similarity_score item full_name institution_name scholarship_year
        then some (compute_similarity_score item full_name institution_name scholarship_year,
          item) else none))).filter (fun p => 2 <= p.1) = [] :=
      List.head?_eq_none_iff.mp hkey
    simp only [hbs]
    rw [<- filter_head_eq_find]
    rcases hex : results.filter (fun item => hasExactAuthor item full_name)
      with _ | ⟨e0, erest⟩
    · rfl
    · have he0 : e0 ∈ results := by
        have h1 : e0 ∈ results.filter (fun item => hasExactAuthor item full_name) := by
          rw [hex]
          exact List.mem_cons_self _ _
        exact (List.mem_filter.mp h1).1
      show (if e0.doi ≠ "" then some (mkDoiUrl e0.doi, 1) else none)
        = Option.map (fun item => (mkDoiUrl item.doi, 1)) (e0 :: erest).head?
      rw [if_pos (hdoi e0 he0)]
      rfl
  · -- some document reaches score 2, with first-encountered maximum itM
    simp only [hM] at hkey
    simp only [hM]
    obtain ⟨x, hxmem, hx1⟩ := maxScore_mem _ M hM
    obtain ⟨itM0, hitM0, hpair⟩ := List.mem_map.mp hxmem
    obtain ⟨hitM0res, hitM0p⟩ := List.mem_filter.mp hitM0
    have hscM : compute_similarity_score itM0 full_name institution_name scholarship_year
        = M := by rw [<- hx1, <- hpair]
    obtain ⟨itM, hfind⟩ := find?_isSome_of_mem (fun it =>
        decide (compute_similarity_score it full_name institution_name scholarship_year = M))
      results itM0 hitM0res (by simpa using hscM)
    simp only [hfind] at hkey
    simp only [hfind]
    rcases hbs : (sortDesc (results.filterMap (fun item =>
        if 0 < compute_similarity_score item full_name institution_name scholarship_year
        then some (compute_similarity_score item full_name institution_name scholarship_year,
          item) else none))).filter (fun p => 2 <= p.1) with _ | ⟨p, brest⟩
    · rw [hbs] at hkey
      simp at hkey
    · rw [hbs] at hkey
      simp only [List.head?_cons, Option.some.injEq, Option.map_some'] at hkey
      subst hkey
      simp only [hbs, Option.map_some']
      have hitMres : itM ∈ results := List.mem_of_find?_eq_some hfind
      have hitMsc : compute_similarity_score itM full_name institution_name scholarship_year
          = M := by simpa using List.find?_some hfind
      rw [if_pos (hdoi itM hitMres), hitMsc]

/-- Claim C4 witness: the amended selection policy at a two-document
result set with DOIs, where the higher-scoring later document wins. -/
theorem C4_selection_policy_witness :
    search_doi
        [{ author := [{ given := "Pedro", family := "Gomez", affiliationNames := [] }],
           publisher := "", createdDateParts := [[1990]], doi := "10.1/a" },
         { author := [{ given := "Ana", family := "Ruiz", affiliationNames := [] }],
           publisher := "", createdDateParts := [[2014]], doi := "10.1/b" }]
        "ana ruiz" "zzz" 2015
      = claimSelect
        [{ author := [{ given := "Pedro", family := "Gomez", affiliationNames := [] }],
           publisher := "", createdDateParts := [[1990]], doi := "10.1/a" },
         { author := [{ given := "Ana", family := "Ruiz", affiliationNames := [] }],
           publisher := "", createdDateParts := [[2014]], doi := "10.1/b" }]
        "ana ruiz" "zzz" 2015 :=
  C4_selection_policy _ "ana ruiz" "zzz" 2015 (by decide)

/-! ### Character and whitespace lemmas for normalization idempotence -/

/-- `Char.ofNat` round-trips on valid scalar values below the surrogate
range. -/
theorem toNat_ofNat_of_lt (n : Nat) (h : n < 55296) :
    (Char.ofNat n).toNat = n := by
  simp [Char.ofNat, Nat.isValidChar, h, Char.ofNatAux, Char.toNat,
    UInt32.toNat, BitVec.toNat_ofNatLt]

/-- Character codes are below `2^32`; in particular `toNat` is
bounded. -/
theorem char_toNat_lt (c : Char) : c.toNat < 1114112 := by
  have := c.valid
  rcases this with h | h
  · have : c.val.toBitVec.toNat < 55296 := h
    simp only [Char.toNat, UInt32.toNat]
    omega
  · have : c.val.toBitVec.toNat < 1114112 := h.2
    simp only [Char.toNat, UInt32.toNat]
    omega

/-- Lowercasing is idempotent. -/
theorem pyLower_idem (c : Char) : pyLower (pyLower c) = pyLower c := by
  unfold pyLower
  by_cases h1 : 0x41 ≤ c.toNat ∧ c.toNat ≤ 0x5A
  · rw [if_pos h1]
    have ht : (Char.ofNat (c.toNat + 32)).toNat = c.toNat + 32 :=
      toNat_ofNat_of_lt _ (by omega)
    rw [if_neg (by omega), if_neg (by omega)]
  · rw [if_neg h1]
    by_cases h2 : (0xC0 ≤ c.toNat ∧ c.toNat ≤ 0xDE) ∧ c.toNat ≠ 0xD7
    · rw [if_pos h2]
      have ht : (Char.ofNat (c.toNat + 32)).toNat = c.toNat + 32 :=
        toNat_ofNat_of_lt _ (by omega)
      rw [if_neg (by omega), if_neg (by omega)]
    · rw [if_neg h2, if_neg h1, if_neg h2]

/-- Lowercasing fixes ASCII lowercase letters and digits. -/
theorem pyLower_fixed_low (c : Char) (h : c.toNat ≤ 0x7A)
    (h2 : ¬(0x41 ≤ c.toNat ∧ c.toNat ≤ 0x5A)) : pyLower c = c := by
  unfold pyLower
  rw [if_neg h2, if_neg (by omega)]

/-- NFKD fixes ASCII characters. -/
theorem nfkdChar_fixed_ascii (c : Char) (h : c.toNat ≤ 0x7F) :
    nfkdChar c = [c] := by
  unfold nfkdChar
  rw [if_pos h]

/-- Every decomposition in the NFKD table consists of an ASCII
lowercase base letter and combining marks. -/
theorem nfkdTable_chars :
    ∀ p ∈ nfkdTable, ∀ d ∈ p.2,
      (0x61 ≤ d.toNat ∧ d.toNat ≤ 0x7A) ∨ isCombining d = true := by
  decide

/-- Characters produced by `nfkdChar` are the input itself (when it is
left undecomposed), ASCII lowercase letters, or combining marks. -/
theorem nfkdChar_mem (e d : Char) (hd : d ∈ nfkdChar e) :
    (nfkdChar e = [d] ∧ d = e)
    ∨ (0x61 ≤ d.toNat ∧ d.toNat ≤ 0x7A)
    ∨ isCombining d = true := by
  unfold nfkdChar at hd ⊢
  by_cases h7 : e.toNat ≤ 0x7F
  · rw [if_pos h7] at hd ⊢
    simp only [List.mem_singleton] at hd
    exact Or.inl ⟨by rw [hd], hd⟩
  · rw [if_neg h7] at hd ⊢
    rcases hf : nfkdTable.find? (fun p => p.1 = e) with _ | p
    · rw [hf] at hd ⊢
      simp only [List.mem_singleton] at hd
      exact Or.inl ⟨by rw [hd], hd⟩
    · rw [hf] at hd
      have hp : p ∈ nfkdTable := List.mem_of_find?_eq_some hf
      exact Or.inr (nfkdTable_chars p hp d hd)

/-- Alphanumeric characters are not hyphen-like and not whitespace. -/
theorem pyAlnum_not_special (c : Char) (h : pyAlnum c = true) :
    isHyphenLike c = false ∧ pyIsSpace c = false := by
  simp only [pyAlnum, Bool.or_eq_true, Bool.and_eq_true, decide_eq_true_eq] at h
  constructor
  · simp only [isHyphenLike, Bool.or_eq_false_iff, decide_eq_false_iff_not]
    constructor
    · intro hc
      subst hc
      revert h
      decide
    · intro hc
      subst hc
      revert h
      decide
  · simp only [pyIsSpace, Bool.or_eq_false_iff, Bool.and_eq_false_iff,
      decide_eq_false_iff_not]
    omega

/-- Membership survives `pyStrip`'s decomposition: the front-stripped
list splits as the fully stripped list followed by a whitespace tail. -/
theorem pyStrip_decomp (l : List Char) :
    ∃ t, l.dropWhile pyIsSpace = pyStrip l ++ t := by
  refine ⟨((l.dropWhile pyIsSpace).reverse.takeWhile pyIsSpace).reverse, ?_⟩
  unfold pyStrip
  conv_lhs => rw [← List.reverse_reverse (l.dropWhile pyIsSpace)]
  conv_lhs => rw [← List.takeWhile_append_dropWhile pyIsSpace
    (l.dropWhile pyIsSpace).reverse]
  rw [List.reverse_append]

/-- `pyStrip` keeps only characters of the original list. -/
theorem pyStrip_mem (l : List Char) (c : Char) (hc : c ∈ pyStrip l) :
    c ∈ l := by
  obtain ⟨t, ht⟩ := pyStrip_decomp l
  have h1 : c ∈ l.dropWhile pyIsSpace := by
    rw [ht]
    exact List.mem_append_left _ hc
  have h2 : c ∈ l.takeWhile pyIsSpace ++ l.dropWhile pyIsSpace :=
    List.mem_append_right _ h1
  rwa [List.takeWhile_append_dropWhile] at h2

/-- The head of a `dropWhile` result fails the predicate. -/
theorem dropWhile_head_not {α : Type} (p : α → Bool) :
    ∀ (l : List α) (c : α) (t : List α), l.dropWhile p = c :: t → p c = false := by
  intro l
  induction l with
  | nil => intro c t h; simp at h
  | cons a rest ih =>
    intro c t h
    rw [List.dropWhile_cons] at h
    split at h
    · exact ih c t h
    · rename_i hpa
      obtain ⟨rfl, -⟩ := List.cons.injEq .. ▸ h
      simpa using hpa

/-- `dropWhile` is idempotent. -/
theorem dropWhile_idem {α : Type} (p : α → Bool) (l : List α) :
    (l.dropWhile p).dropWhile p = l.dropWhile p := by
  rcases h : l.dropWhile p with _ | ⟨c, t⟩
  · rfl
  · rw [List.dropWhile_cons, if_neg (by simp [dropWhile_head_not p l c t h])]

/-- `pyStrip` is idempotent. -/
theorem pyStrip_idem (l : List Char) : pyStrip (pyStrip l) = pyStrip l := by
  have hfront : (pyStrip l).dropWhile pyIsSpace = pyStrip l := by
    rcases hh : pyStrip l with _ | ⟨c, t⟩
    · rfl
    · obtain ⟨t2, ht2⟩ := pyStrip_decomp l
      rw [hh] at ht2
      have hc : pyIsSpace c = false :=
        dropWhile_head_not pyIsSpace l c (t ++ t2) (by simpa using ht2)
      rw [List.dropWhile_cons, if_neg (by simp [hc])]
  show ((pyStrip (pyStrip l)) : List Char) = pyStrip l
  conv_lhs => rw [pyStrip, hfront]
  rw [pyStrip, List.reverse_reverse, dropWhile_idem, ← pyStrip]

/-- Characters of a collapsed list: an inserted space or an original
non-space character. -/
theorem collapseWS_mem :
    ∀ (m : List Char) (c : Char), c ∈ collapseWS m →
      c = ' ' ∨ (c ∈ m ∧ pyIsSpace c = false) := by
  intro m
  induction m with
  | nil => intro c hc; simp [collapseWS] at hc
  | cons a rest ih =>
    intro c hc
    rw [collapseWS] at hc
    by_cases hsp : pyIsSpace a
    · rw [if_pos hsp] at hc
      rcases htail : collapseWS rest with _ | ⟨d, t⟩
      · rw [htail] at hc
        simp at hc
        exact Or.inl hc
      · rw [htail] at hc
        have hcif : c ∈ (if d = ' ' then d :: t else ' ' :: d :: t) := hc
        by_cases hd : d = ' '
        · rw [if_pos hd] at hcif
          have hc2 : c ∈ collapseWS rest := by rw [htail]; exact hcif
          rcases ih c hc2 with h | ⟨hm, hs⟩
          · exact Or.inl h
          · exact Or.inr ⟨List.mem_cons_of_mem _ hm, hs⟩
        · rw [if_neg hd] at hcif
          rcases List.mem_cons.mp hcif with rfl | hc'
          · exact Or.inl rfl
          · have hc2 : c ∈ collapseWS rest := by rw [htail]; exact hc'
            rcases ih c hc2 with h | ⟨hm, hs⟩
            · exact Or.inl h
            · exact Or.inr ⟨List.mem_cons_of_mem _ hm, hs⟩
    · rw [if_neg hsp] at hc
      rcases List.mem_cons.mp hc with rfl | hc'
      · exact Or.inr ⟨List.mem_cons_self _ _, by simpa using hsp⟩
      · rcases ih c hc' with h | ⟨hm, hs⟩
        · exact Or.inl h
        · exact Or.inr ⟨List.mem_cons_of_mem _ hm, hs⟩

/-- Whitespace characters in collapsed output are exactly `' '`. -/
theorem collapseWS_space_mem (m : List Char) (c : Char)
    (hc : c ∈ collapseWS m) (hs : pyIsSpace c = true) : c = ' ' := by
  rcases collapseWS_mem m c hc with h | ⟨-, hf⟩
  · exact h
  · rw [hs] at hf
    cases hf

/-- Dropping the head preserves `noTwoSpaces`. -/
theorem noTwoSpaces_tail (c : Char) (r : List Char)
    (h : noTwoSpaces (c :: r)) : noTwoSpaces r := by
  rcases r with _ | ⟨d, t⟩
  · trivial
  · exact h.2

/-- Collapsed output has no two adjacent whitespace characters. -/
theorem collapseWS_noTwo : ∀ m : List Char, noTwoSpaces (collapseWS m) := by
  intro m
  induction m with
  | nil => trivial
  | cons a rest ih =>
    rw [collapseWS]
    by_cases hsp : pyIsSpace a
    · rw [if_pos hsp]
      rcases htail : collapseWS rest with _ | ⟨d, t⟩
      · trivial
      · rw [htail] at ih
        show noTwoSpaces (if d = ' ' then d :: t else ' ' :: d :: t)
        by_cases hd : d = ' '
        · rw [if_pos hd]
          exact ih
        · rw [if_neg hd]
          refine ⟨?_, ih⟩
          rintro ⟨-, hds⟩
          exact hd (collapseWS_space_mem rest d
            (by rw [htail]; exact List.mem_cons_self _ _) hds)
    · rw [if_neg hsp]
      rcases htail : collapseWS rest with _ | ⟨d, t⟩
      · trivial
      · rw [htail] at ih
        refine ⟨?_, ih⟩
        rintro ⟨has, -⟩
        exact hsp has

/-- `noTwoSpaces` restricts to the right part of an append. -/
theorem noTwoSpaces_append_right :
    ∀ (a b : List Char), noTwoSpaces (a ++ b) → noTwoSpaces b := by
  intro a
  induction a with
  | nil => intro b h; exact h
  | cons x a' ih => intro b h; exact ih b (noTwoSpaces_tail x _ h)

/-- `noTwoSpaces` restricts to the left part of an append. -/
theorem noTwoSpaces_append_left :
    ∀ (a b : List Char), noTwoSpaces (a ++ b) → noTwoSpaces a := by
  intro a
  induction a with
  | nil => intro b _; trivial
  | cons x a' ih =>
    intro b h
    rcases a' with _ | ⟨y, a''⟩
    · trivial
    · exact ⟨h.1, ih b (noTwoSpaces_tail x _ h)⟩

/-- `pyStrip` preserves `noTwoSpaces`. -/
theorem noTwoSpaces_pyStrip (l : List Char) (h : noTwoSpaces l) :
    noTwoSpaces (pyStrip l) := by
  have h1 : noTwoSpaces (l.dropWhile pyIsSpace) := by
    have := List.takeWhile_append_dropWhile pyIsSpace l
    exact noTwoSpaces_append_right (l.takeWhile pyIsSpace) _ (by rwa [this])
  obtain ⟨t, ht⟩ := pyStrip_decomp l
  rw [ht] at h1
  exact noTwoSpaces_append_left _ _ h1

/-- A collapsed, single-space list is a fixed point of `collapseWS`. -/
theorem collapseWS_eq_self :
    ∀ m : List Char, noTwoSpaces m → (∀ c ∈ m, pyIsSpace c = true → c = ' ') →
      collapseWS m = m := by
  intro m
  induction m with
  | nil => intro _ _; rfl
  | cons a rest ih =>
    intro hnt hsp
    have hrest : collapseWS rest = rest :=
      ih (noTwoSpaces_tail a rest hnt) (fun c hc hs => hsp c (List.mem_cons_of_mem _ hc) hs)
    rw [collapseWS, hrest]
    by_cases ha : pyIsSpace a
    · rw [if_pos ha]
      have ha' : a = ' ' := hsp a (List.mem_cons_self _ _) (by simpa using ha)
      rcases rest with _ | ⟨d, t⟩
      · show [' '] = [a]
        rw [ha']
      · have hd : pyIsSpace d = false := by
          by_contra hcon
          exact hnt.1 ⟨by simpa using ha, by simpa using hcon⟩
        show (if d = ' ' then d :: t else ' ' :: d :: t) = a :: d :: t
        rw [if_neg (show ¬ d = ' ' by rintro rfl; revert hd; decide), ha']
    · rw [if_neg ha]

/-- A pointwise-fixed map is the identity. -/
theorem map_eq_self_of {α : Type} (f : α → α) :
    ∀ l : List α, (∀ c ∈ l, f c = c) → l.map f = l := by
  intro l
  induction l with
  | nil => intro _; rfl
  | cons a t ih =>
    intro h
    rw [List.map_cons, h a (List.mem_cons_self _ _),
      ih (fun c hc => h c (List.mem_cons_of_mem _ hc))]

/-- A pointwise-singleton `flatMap` is the identity. -/
theorem flatMap_eq_self_of (f : Char → List Char) :
    ∀ l : List Char, (∀ c ∈ l, f c = [c]) → l.flatMap f = l := by
  intro l
  induction l with
  | nil => intro _; rfl
  | cons a t ih =>
    intro h
    rw [List.flatMap_cons, h a (List.mem_cons_self _ _),
      ih (fun c hc => h c (List.mem_cons_of_mem _ hc))]
    rfl

/-- Every character of a normalized name is a space or a fully
normalization-stable alphanumeric character. -/
theorem normalizeChars_chars (l : List Char) :
    ∀ c ∈ normalizeChars l, c = ' '
      ∨ (pyAlnum c = true ∧ pyLower c = c ∧ nfkdChar c = [c]
         ∧ isCombining c = false ∧ isHyphenLike c = false
         ∧ pyIsSpace c = false) := by
  intro c hc
  have hOE : normalizeChars l
      = pyStrip (collapseWS (List.filter (fun c => pyAlnum c || pyIsSpace c)
          (List.map (fun c => if isHyphenLike c then ' ' else c)
            (List.filter (fun c => !isCombining c)
              ((List.map pyLower (pyStrip l)).flatMap nfkdChar))))) := rfl
  rw [hOE] at hc
  have hc1 := pyStrip_mem _ _ hc
  rcases collapseWS_mem _ _ hc1 with rfl | ⟨hc4, hcsp⟩
  · exact Or.inl rfl
  · right
    obtain ⟨hc3, hfilter⟩ := List.mem_filter.mp hc4
    have halnum : pyAlnum c = true := by
      have h' : pyAlnum c = true ∨ pyIsSpace c = true := by
        simpa using hfilter
      rcases h' with h | h
      · exact h
      · rw [hcsp] at h
        cases h
    obtain ⟨hhyph, hspf⟩ := pyAlnum_not_special c halnum
    obtain ⟨d, hd2, hdc⟩ := List.mem_map.mp hc3
    have hcd : d = c := by
      by_cases hh : isHyphenLike d
      · rw [if_pos hh] at hdc
        rw [← hdc] at hcsp
        exact absurd hcsp (by decide)
      · rw [if_neg hh] at hdc
        exact hdc
    rw [hcd] at hd2
    obtain ⟨hcflat, hcombb⟩ := List.mem_filter.mp hd2
    have hcomb : isCombining c = false := by simpa using hcombb
    obtain ⟨e, he1, hce⟩ := List.mem_flatMap.mp hcflat
    obtain ⟨x, hx, hex⟩ := List.mem_map.mp he1
    rcases nfkdChar_mem e c hce with ⟨hnfe, heq⟩ | hbase | hcombT
    · subst heq
      refine ⟨halnum, ?_, hnfe, hcomb, hhyph, hspf⟩
      rw [← hex, pyLower_idem]
    · have h1 : pyLower c = c := pyLower_fixed_low c (by omega) (by omega)
      have h2 : nfkdChar c = [c] := nfkdChar_fixed_ascii c (by omega)
      exact ⟨halnum, h1, h2, hcomb, hhyph, hspf⟩
    · rw [hcomb] at hcombT
      exact absurd hcombT (by decide)

/-- `normalizeChars` is idempotent. -/
theorem normalizeChars_idem (l : List Char) :
    normalizeChars (normalizeChars l) = normalizeChars l := by
  have hchars := normalizeChars_chars l
  have hOE : normalizeChars l
      = pyStrip (collapseWS (List.filter (fun c => pyAlnum c || pyIsSpace c)
          (List.map (fun c => if isHyphenLike c then ' ' else c)
            (List.filter (fun c => !isCombining c)
              ((List.map pyLower (pyStrip l)).flatMap nfkdChar))))) := rfl
  have hstrip : pyStrip (normalizeChars l) = normalizeChars l := by
    rw [hOE]
    exact pyStrip_idem _
  have hnoTwo : noTwoSpaces (normalizeChars l) := by
    rw [hOE]
    exact noTwoSpaces_pyStrip _ (collapseWS_noTwo _)
  have hspc : ∀ c ∈ normalizeChars l, pyIsSpace c = true → c = ' ' := by
    intro c hc hs
    rcases hchars c hc with h | ⟨-, -, -, -, -, hf⟩
    · exact h
    · rw [hs] at hf
      cases hf
  have h1 : (normalizeChars l).map pyLower = normalizeChars l := by
    apply map_eq_self_of
    intro c hc
    rcases hchars c hc with rfl | ⟨-, h, -, -, -, -⟩
    · decide
    · exact h
  have h2 : ((normalizeChars l).flatMap nfkdChar) = normalizeChars l := by
    apply flatMap_eq_self_of
    intro c hc
    rcases hchars c hc with rfl | ⟨-, -, h, -, -, -⟩
    · decide
    · exact h
  have h3 : (normalizeChars l).filter (fun c => !isCombining c)
      = normalizeChars l := by
    rw [List.filter_eq_self]
    intro c hc
    rcases hchars c hc with rfl | ⟨-, -, -, h, -, -⟩
    · decide
    · simp [h]
  have h4 : (normalizeChars l).map (fun c => if isHyphenLike c then ' ' else c)
      = normalizeChars l := by
    apply map_eq_self_of
    intro c hc
    rcases hchars c hc with rfl | ⟨-, -, -, -, h, -⟩
    · decide
    · rw [if_neg (by simp [h])]
  have h5 : (normalizeChars l).filter (fun c => pyAlnum c || pyIsSpace c)
      = normalizeChars l := by
    rw [List.filter_eq_self]
    intro c hc
    rcases hchars c hc with rfl | ⟨h, -, -, -, -, -⟩
    · decide
    · simp [h]
  have h6 : collapseWS (normalizeChars l) = normalizeChars l :=
    collapseWS_eq_self _ hnoTwo hspc
  show pyStrip (collapseWS (List.filter (fun c => pyAlnum c || pyIsSpace c)
      (List.map (fun c => if isHyphenLike c then ' ' else c)
        (List.filter (fun c => !isCombining c)
          ((List.map pyLower (pyStrip (normalizeChars l))).flatMap nfkdChar)))))
    = normalizeChars l
  rw [hstrip, h1, h2, h3, h4, h5, h6, hstrip]

/-- Claim C9: `normalize_name` is idempotent, and is case-, accent- and
hyphen-insensitive on the spec's example, identifying "Núñez-Ríos" with
"nunez rios". -/
theorem C9_normalize_idempotent :
    (∀ x : String, normalize_name (normalize_name x) = normalize_name x)
    ∧ normalize_name "Núñez-Ríos" = normalize_name "nunez rios" := by
  constructor
  · intro x
    show String.mk (normalizeChars (String.mk (normalizeChars x.data)).data)
      = String.mk (normalizeChars x.data)
    rw [show (String.mk (normalizeChars x.data)).data
      = normalizeChars x.data from rfl]
    rw [normalizeChars_idem]
  · decide

end AuthorDisambiguation
